import Mathlib

/-!
# Verification of `find_free_slots` (calendar_agent/calendar_utils.py)

Shallow embedding of the free-time-slot finder.  A timezone-naive Python
`datetime` is modelled by `DT` (civil day index plus time-of-day fields);
the heterogeneous raw timestamp strings of an event are modelled by
`TimeField` (the possible outcomes of the string-shape tests and of the
two parsers `strptime("%Y-%m-%d")` and `fromisoformat`); the window
boundaries are modelled by `Option DT` (the outcome of the guarded
`fromisoformat` calls, `none` = `ValueError`).  Python's stable Timsort
is modelled by a stable insertion sort (stable sorts agree extensionally).
`find_free_slotsE` is the error-aware variant in which the one primitive
that can raise outside a `try` block, `datetime.replace(hour=...)`, is
fallible; `none` models an escaped exception.

A central behavioural quirk of the source is preserved exactly: the two
`continue` statements of the working-hours clip (lines 238 and 245) skip
the cursor update `current_time = max(current_time, busy_end)` at line
258, so a gap discarded by the clip leaves the sweep cursor unchanged.
-/

namespace CalendarAgent

/-- A timezone-naive Python `datetime`: civil day index (as produced by
`toordinal`) plus time-of-day fields.  The calendar-to-ordinal conversion
is a bijection, and the code never inspects year/month/day separately,
so this representation is faithful. -/
structure DT where
  days : Int
  hour : Nat
  minute : Nat
  second : Nat
  micro : Nat
deriving DecidableEq

/-- Linearisation of a datetime to microseconds since day 0.  Comparison of
Python datetimes is comparison of these values (for field-valid datetimes). -/
def DT.toMicros (t : DT) : Int :=
  (((t.days * 24 + (t.hour : Int)) * 60 + (t.minute : Int)) * 60 + (t.second : Int)) * 1000000
    + (t.micro : Int)

/-- Field bounds that every Python `datetime` satisfies by construction. -/
def DT.valid (t : DT) : Prop :=
  t.hour < 24 ∧ t.minute < 60 ∧ t.second < 60 ∧ t.micro < 1000000

instance (t : DT) : Decidable t.valid :=
  inferInstanceAs (Decidable (_ ∧ _ ∧ _ ∧ _))

/-- A valid datetime with whole seconds (no fractional-second part). -/
def DT.wf (t : DT) : Prop := t.valid ∧ t.micro = 0

instance (t : DT) : Decidable t.wf :=
  inferInstanceAs (Decidable (_ ∧ _))

/-- Python `min` of two datetimes (returns the first argument on ties). -/
def DT.dmin (a b : DT) : DT := if a.toMicros ≤ b.toMicros then a else b

/-- Python `max` of two datetimes (returns the first argument on ties). -/
def DT.dmax (a b : DT) : DT := if a.toMicros < b.toMicros then b else a

/-- `t.replace(hour=h, minute=0, second=0)`: note that the microsecond
field is kept, exactly as in the source. -/
def DT.setHour (t : DT) (h : Nat) : DT := { t with hour := h, minute := 0, second := 0 }

/-- `t.strftime("%Y-%m-%dT%H:%M:%SZ")`: the output format has second
precision, so formatting truncates the microsecond field. -/
def DT.fmt (t : DT) : DT := { t with micro := 0 }

/-- The raw timestamp string of one boundary of an event, as seen by
`find_free_slots` after `get_event_time`: classified by the two shape and
parseability tests the code performs.
* `missing`: `get_event_time` returned the empty string;
* `dateOnly d`: a canonical `YYYY-MM-DD` date (no `"T"`), accepted by both
  `strptime("%Y-%m-%d")` and `fromisoformat`, denoting midnight of day `d`;
* `dateLoose d`: a date without `"T"` accepted by `strptime("%Y-%m-%d")`
  but rejected by `fromisoformat` (e.g. non-padded fields);
* `timed t`: a string containing `"T"` that `fromisoformat` parses; `t` is
  the wall-clock value after `tzinfo` is dropped by `replace(tzinfo=None)`;
* `badT` / `badNoT`: a non-empty string (with / without `"T"`) that every
  parser used by the code rejects. -/
inductive TimeField
  | missing
  | dateOnly (d : Int)
  | dateLoose (d : Int)
  | timed (t : DT)
  | badT
  | badNoT
deriving DecidableEq

/-- One raw calendar event record: `get_event_time(event.get("start"))` and
`get_event_time(event.get("end"))`. -/
structure Event where
  start : TimeField
  endf : TimeField
deriving DecidableEq

def TimeField.isMissing : TimeField → Bool
  | .missing => true
  | _ => false

/-- `"T" in start_str` for the string classes. -/
def TimeField.hasT : TimeField → Bool
  | .timed _ => true
  | .badT => true
  | _ => false

/-- Midnight of civil day `d` (what `strptime("%Y-%m-%d")` produces). -/
def midnight (d : Int) : DT := ⟨d, 0, 0, 0, 0⟩

/-- `datetime.strptime(s, "%Y-%m-%d")` on the string classes. -/
def strptimeDate : TimeField → Option DT
  | .dateOnly d => some (midnight d)
  | .dateLoose d => some (midnight d)
  | _ => none

/-- `datetime.fromisoformat(s.replace("Z", "+00:00"))` followed by
`replace(tzinfo=None)`, on the string classes. -/
def fromIso : TimeField → Option DT
  | .timed t => some t
  | .dateOnly d => some (midnight d)
  | _ => none

/-- Lines 184-208 of `calendar_utils.py`, for one event: drop the record if
either boundary string is empty; otherwise branch on `"T" in start_str`
and parse both boundaries with the selected parser, dropping the record on
any `ValueError`. -/
def busyOfEvent (ev : Event) : Option (DT × DT) :=
  if ev.start.isMissing || ev.endf.isMissing then none
  else if ev.start.hasT then
    match fromIso ev.start, fromIso ev.endf with
    | some s, some e => some (s, e)
    | _, _ => none
  else
    match strptimeDate ev.start, strptimeDate ev.endf with
    | some s, some e => some (s, e)
    | _, _ => none

/-- Insert a busy interval into a list sorted by start, keeping it after
strictly smaller starts and before greater-or-equal starts. -/
def insertBusy (x : DT × DT) : List (DT × DT) → List (DT × DT)
  | [] => [x]
  | y :: ys => if y.1.toMicros < x.1.toMicros then y :: insertBusy x ys else x :: y :: ys

/-- `busy_periods.sort(key=lambda x: x[0])`: Python's sort is stable, and
any stable sort by start is extensionally equal to this insertion sort. -/
def sortBusy : List (DT × DT) → List (DT × DT)
  | [] => []
  | x :: xs => insertBusy x (sortBusy xs)

/-- One output record `{"start": ..., "end": ..., "duration_minutes": ...}`;
the two timestamps are stored at the second precision of the
`"%Y-%m-%dT%H:%M:%SZ"` output format. -/
structure FreeSlot where
  start : DT
  endf : DT
  duration_minutes : Int
deriving DecidableEq

/-- `int((gap_end - gap_start).total_seconds() / 60)`: the code only
evaluates this when `gap_end > gap_start`, where Python's truncation
toward zero coincides with this floor division. -/
def durMinutes (gs ge : DT) : Int := (ge.toMicros - gs.toMicros) / 60000000

/-- The end half of the working-hours adjustment (lines 239-245 resp.
273-277): clamp an end with hour ≥ `weh` back to `weh:00:00` (same day,
microseconds kept), discard a gap whose end hour is before `wsh`. -/
def adjustEnd (wsh weh : Nat) (gs ge : DT) : Option (DT × DT) :=
  if ge.hour ≥ weh then some (gs, ge.setHour weh)
  else if ge.hour < wsh then none
  else some (gs, ge)

/-- The working-hours clip of a candidate gap (lines 229-245 resp.
265-277); `none` is the `continue`/`return` discard. -/
def adjustGap (who : Bool) (wsh weh : Nat) (gs ge : DT) : Option (DT × DT) :=
  if who then
    if gs.hour < wsh then adjustEnd wsh weh (gs.setHour wsh) ge
    else if gs.hour ≥ weh then none
    else adjustEnd wsh weh gs ge
  else some (gs, ge)

/-- The emptiness/duration check and slot construction on an already
clipped gap (lines 247-255 resp. 279-286). -/
def emitAdjusted (md : Int) (a b : DT) : Option FreeSlot :=
  if a.toMicros < b.toMicros then
    if md ≤ durMinutes a b then some ⟨a.fmt, b.fmt, durMinutes a b⟩ else none
  else none

/-- Clip, then emit the gap as a `FreeSlot` when it is still non-empty and
long enough (lines 229-255 resp. 265-286). -/
def emitGap (who : Bool) (wsh weh : Nat) (md : Int) (gs ge : DT) : Option FreeSlot :=
  match adjustGap who wsh weh gs ge with
  | none => none
  | some (a, b) => emitAdjusted md a b

/-- The sweep over the sorted busy list (lines 223-258): emit the gap
before each busy interval that starts after the cursor, clamped to the
range end; when the iteration completes normally the cursor advances to
`max(cursor, busy_end)` (line 258).  Preserved quirk of the source: the
two `continue` statements of the working-hours clip (lines 238 and 245)
jump straight to the next iteration and therefore SKIP the cursor update,
so when the clip discards a gap the cursor stays where it was.  Returns
the emitted slots and the final cursor. -/
def sweep (who : Bool) (wsh weh : Nat) (md : Int) (rangeEnd : DT) :
    List (DT × DT) → DT → List FreeSlot × DT
  | [], cur => ([], cur)
  | (bs, be) :: rest, cur =>
    if cur.toMicros < bs.toMicros then
      match adjustGap who wsh weh cur (DT.dmin bs rangeEnd) with
      | none => sweep who wsh weh md rangeEnd rest cur
      | some (a, b) =>
        let r := sweep who wsh weh md rangeEnd rest (DT.dmax cur be)
        ((emitAdjusted md a b).toList ++ r.1, r.2)
    else
      sweep who wsh weh md rangeEnd rest (DT.dmax cur be)

/-- `find_free_slots`.  The window boundaries are the outcome of the
guarded `fromisoformat` calls (`none` = `ValueError`, line 179-180). -/
def find_free_slots (events : List Event) (time_min time_max : Option DT)
    (min_duration_minutes : Int) (working_hours_only : Bool)
    (working_start_hour working_end_hour : Nat) : List FreeSlot :=
  match time_min, time_max with
  | some rs, some re =>
    let busy := sortBusy (events.filterMap busyOfEvent)
    let r := sweep working_hours_only working_start_hour working_end_hour
      min_duration_minutes re busy rs
    if r.2.toMicros < re.toMicros then
      r.1 ++ (emitGap working_hours_only working_start_hour working_end_hour
        min_duration_minutes r.2 re).toList
    else r.1
  | _, _ => []

/-- Error-aware `replace(hour=h, minute=0, second=0)`: Python validates
`0 ≤ hour ≤ 23` and raises `ValueError` otherwise (not inside a `try`). -/
def setHourE (t : DT) (h : Nat) : Option DT :=
  if h ≤ 23 then some (t.setHour h) else none

/-- Error-aware variant of `adjustEnd`; outer `none` = escaped exception,
inner `none` = discarded gap. -/
def adjustEndE (wsh weh : Nat) (gs ge : DT) : Option (Option (DT × DT)) :=
  if ge.hour ≥ weh then (setHourE ge weh).map (fun b => some (gs, b))
  else if ge.hour < wsh then some none
  else some (some (gs, ge))

/-- Error-aware variant of `adjustGap`. -/
def adjustGapE (who : Bool) (wsh weh : Nat) (gs ge : DT) : Option (Option (DT × DT)) :=
  if who then
    if gs.hour < wsh then (setHourE gs wsh).bind (fun a => adjustEndE wsh weh a ge)
    else if gs.hour ≥ weh then some none
    else adjustEndE wsh weh gs ge
  else some (some (gs, ge))

/-- Error-aware variant of `emitGap`. -/
def emitGapE (who : Bool) (wsh weh : Nat) (md : Int) (gs ge : DT) :
    Option (Option FreeSlot) :=
  match adjustGapE who wsh weh gs ge with
  | none => none
  | some none => some none
  | some (some (a, b)) => some (emitAdjusted md a b)

/-- Error-aware variant of `sweep`, with the same skipped cursor update on
the clip-discard (`continue`) paths. -/
def sweepE (who : Bool) (wsh weh : Nat) (md : Int) (rangeEnd : DT) :
    List (DT × DT) → DT → Option (List FreeSlot × DT)
  | [], cur => some ([], cur)
  | (bs, be) :: rest, cur =>
    if cur.toMicros < bs.toMicros then
      (adjustGapE who wsh weh cur (DT.dmin bs rangeEnd)).bind fun adj =>
        match adj with
        | none => sweepE who wsh weh md rangeEnd rest cur
        | some (a, b) =>
          (sweepE who wsh weh md rangeEnd rest (DT.dmax cur be)).map fun r =>
            ((emitAdjusted md a b).toList ++ r.1, r.2)
    else
      sweepE who wsh weh md rangeEnd rest (DT.dmax cur be)

/-- Error-aware `find_free_slots`: `none` models an exception escaping to
the caller; `some l` models a normal return of `l`. -/
def find_free_slotsE (events : List Event) (time_min time_max : Option DT)
    (min_duration_minutes : Int) (working_hours_only : Bool)
    (working_start_hour working_end_hour : Nat) : Option (List FreeSlot) :=
  match time_min, time_max with
  | some rs, some re =>
    (sweepE working_hours_only working_start_hour working_end_hour
        min_duration_minutes re (sortBusy (events.filterMap busyOfEvent)) rs).bind fun r =>
      if r.2.toMicros < re.toMicros then
        (emitGapE working_hours_only working_start_hour working_end_hour
            min_duration_minutes r.2 re).map fun h => r.1 ++ h.toList
      else some r.1
  | _, _ => some []

/-- The start of an emitted slot as a total function of the raw gap start:
identity without working-hours mode, otherwise the forward clamp to
`wsh:00:00` when the start hour is before `wsh`. -/
def adjStart (who : Bool) (wsh : Nat) (c : DT) : DT :=
  if who then (if c.hour < wsh then c.setHour wsh else c) else c

/-- Modelled from the spec (§4.4): the claimed duration of a gap,
`round((end - start) in minutes)` with rounding to the nearest integer,
for comparison with the implementation's truncating conversion. -/
def specDurationMinutes (gs ge : DT) : Int :=
  round (((ge.toMicros - gs.toMicros : Int) : ℚ) / 60000000)

/-- A malformed busy-interval record in the sense of claim C7: a record
missing a boundary, or whose start or end string is unparseable. -/
def Event.malformed (ev : Event) : Prop :=
  ev.start = .missing ∨ ev.endf = .missing ∨
  ev.start = .badT ∨ ev.start = .badNoT ∨ ev.endf = .badT ∨ ev.endf = .badNoT

instance (ev : Event) : Decidable ev.malformed :=
  inferInstanceAs (Decidable (_ ∨ _ ∨ _ ∨ _ ∨ _ ∨ _))

/-- Field validity of the datetime carried by a raw timestamp string (any
datetime produced by Python's parsers satisfies this). -/
def TimeField.fieldsOk : TimeField → Prop
  | .timed t => t.valid
  | _ => True

instance (f : TimeField) : Decidable f.fieldsOk := by
  cases f <;> simp only [TimeField.fieldsOk] <;> infer_instance

/-- Whole-second validity of the datetime carried by a raw timestamp. -/
def TimeField.wfT : TimeField → Prop
  | .timed t => t.wf
  | _ => True

instance (f : TimeField) : Decidable f.wfT := by
  cases f <;> simp only [TimeField.wfT] <;> infer_instance

/-- The cursor never moves backwards under Python `max`. -/
theorem le_dmax_left (c be : DT) : c.toMicros ≤ (DT.dmax c be).toMicros := by
  unfold DT.dmax; split_ifs <;> omega

/-- The second argument never exceeds the Python `max`. -/
theorem le_dmax_right (c be : DT) : be.toMicros ≤ (DT.dmax c be).toMicros := by
  unfold DT.dmax; split_ifs <;> omega

/-- Python `min` does not exceed its first argument. -/
theorem dmin_le_left (a b : DT) : (DT.dmin a b).toMicros ≤ a.toMicros := by
  unfold DT.dmin; split_ifs <;> omega

/-- Python `min` does not exceed its second argument. -/
theorem dmin_le_right (a b : DT) : (DT.dmin a b).toMicros ≤ b.toMicros := by
  unfold DT.dmin; split_ifs <;> omega

/-- Python `max` preserves field validity. -/
theorem dmax_valid {c be : DT} (hc : c.valid) (hb : be.valid) : (DT.dmax c be).valid := by
  unfold DT.dmax; split_ifs <;> assumption

/-- Python `max` preserves whole-second validity. -/
theorem dmax_wf {c be : DT} (hc : c.wf) (hb : be.wf) : (DT.dmax c be).wf := by
  unfold DT.dmax; split_ifs <;> assumption

/-- Python `min` preserves whole-second validity. -/
theorem dmin_wf {a b : DT} (ha : a.wf) (hb : b.wf) : (DT.dmin a b).wf := by
  unfold DT.dmin; split_ifs <;> assumption

/-- Two field-valid datetimes with the same linearisation are equal. -/
theorem DT.toMicros_inj {a b : DT} (ha : a.valid) (hb : b.valid)
    (h : a.toMicros = b.toMicros) : a = b := by
  obtain ⟨a1,a2,a3,a4,a5⟩ := a
  obtain ⟨b1,b2,b3,b4,b5⟩ := b
  simp only [DT.valid] at ha hb
  simp only [DT.toMicros] at h
  simp only [DT.mk.injEq]
  omega

/-- Python `max` (leftmost argument on ties) is associative. -/
theorem dmax_assoc (a b c : DT) : DT.dmax (DT.dmax a b) c = DT.dmax a (DT.dmax b c) := by
  unfold DT.dmax
  split_ifs <;> first | rfl | omega

/-- Python `max` is commutative on field-valid datetimes. -/
theorem dmax_comm {a b : DT} (ha : a.valid) (hb : b.valid) : DT.dmax a b = DT.dmax b a := by
  unfold DT.dmax
  split_ifs with h1 h2
  · omega
  · rfl
  · rfl
  · exact DT.toMicros_inj ha hb (by omega)

/-- With working-hours mode disabled the clip is the identity (lines 230,
265: the whole block is guarded by `working_hours_only`). -/
theorem adjustGap_false (wsh weh : Nat) (gs ge : DT) :
    adjustGap false wsh weh gs ge = some (gs, ge) := rfl

/-- Clamping the start hour forward never moves a valid datetime back. -/
theorem le_setHour_self {t : DT} (w : Nat) (hv : t.valid) (hw : t.hour < w) :
    t.toMicros ≤ (t.setHour w).toMicros := by
  obtain ⟨a,b,c,d,e⟩ := t
  obtain ⟨h1,h2,h3,h4⟩ := hv
  dsimp only [DT.setHour, DT.toMicros] at *
  omega

/-- Clamping the end hour backward never moves a datetime forward. -/
theorem setHour_le_self {t : DT} (w : Nat) (hw : w ≤ t.hour) :
    (t.setHour w).toMicros ≤ t.toMicros := by
  obtain ⟨a,b,c,d,e⟩ := t
  dsimp only [DT.setHour, DT.toMicros] at *
  omega

/-- Formatting is the identity on whole-second datetimes. -/
theorem fmt_toMicros_of_micro_eq (t : DT) (h : t.micro = 0) :
    (t.fmt).toMicros = t.toMicros := by
  obtain ⟨a,b,c,d,e⟩ := t
  dsimp only [DT.fmt, DT.toMicros] at *
  omega

/-- The clipped gap start produced by `adjustGap` is `adjStart` of the raw start. -/
theorem adjustGap_start (who : Bool) (wsh weh : Nat) (gs ge a b : DT)
    (h : adjustGap who wsh weh gs ge = some (a, b)) : a = adjStart who wsh gs := by
  unfold adjustGap adjustEnd at h
  unfold adjStart
  split_ifs at h ⊢ <;> simp_all

/-- The clipped bounds are the raw bounds or their hour clamps. -/
theorem adjustGap_cases (who : Bool) (wsh weh : Nat) (gs ge a b : DT)
    (h : adjustGap who wsh weh gs ge = some (a, b)) :
    (a = gs ∨ (a = gs.setHour wsh ∧ gs.hour < wsh)) ∧
    (b = ge ∨ (b = ge.setHour weh ∧ weh ≤ ge.hour)) := by
  unfold adjustGap adjustEnd at h
  split_ifs at h <;>
    cases h <;>
    first
      | exact ⟨Or.inl rfl, Or.inl rfl⟩
      | exact ⟨Or.inl rfl, Or.inr ⟨rfl, by omega⟩⟩
      | exact ⟨Or.inr ⟨rfl, by omega⟩, Or.inl rfl⟩
      | exact ⟨Or.inr ⟨rfl, by omega⟩, Or.inr ⟨rfl, by omega⟩⟩

/-- The start of a slot emitted from a clipped gap is the formatted
`adjStart` of the raw gap start. -/
theorem emitAdjusted_start_eq (who : Bool) (wsh weh : Nat) (md : Int) (gs ge a b : DT)
    (s : FreeSlot) (hadj : adjustGap who wsh weh gs ge = some (a, b))
    (h : emitAdjusted md a b = some s) : s.start = (adjStart who wsh gs).fmt := by
  unfold emitAdjusted at h
  split_ifs at h
  cases h
  rw [adjustGap_start who wsh weh gs ge a b hadj]

/-- Every slot `emitAdjusted` produces has duration at least the minimum. -/
theorem emitAdjusted_min_le (md : Int) (a b : DT) (s : FreeSlot)
    (h : emitAdjusted md a b = some s) : md ≤ s.duration_minutes := by
  unfold emitAdjusted at h
  split_ifs at h with h1 h2
  cases h
  exact h2

/-- Raising the minimum duration turns `emitAdjusted` into a post-filter. -/
theorem emitAdjusted_md_mono (md1 md2 : Int) (h : md1 ≤ md2) (a b : DT) :
    emitAdjusted md2 a b =
      (emitAdjusted md1 a b).bind
        (fun s => if md2 ≤ s.duration_minutes then some s else none) := by
  unfold emitAdjusted
  by_cases h1 : a.toMicros < b.toMicros
  · by_cases h2 : md2 ≤ durMinutes a b
    · have h3 : md1 ≤ durMinutes a b := le_trans h h2
      simp [h1, h2, h3]
    · by_cases h3 : md1 ≤ durMinutes a b <;> simp [h1, h2, h3]
  · simp [h1]

/-- A slot emitted from a clipped whole-second gap stays inside the raw gap
and is non-empty. -/
theorem emitAdjusted_bounds (who : Bool) (wsh weh : Nat) (md : Int) {gs ge a b : DT}
    {s : FreeSlot} (hgs : gs.wf) (hge : ge.wf)
    (hadj : adjustGap who wsh weh gs ge = some (a, b))
    (h : emitAdjusted md a b = some s) :
    gs.toMicros ≤ s.start.toMicros ∧ s.start.toMicros < s.endf.toMicros ∧
      s.endf.toMicros ≤ ge.toMicros := by
  obtain ⟨hca, hcb⟩ := adjustGap_cases who wsh weh gs ge a b hadj
  unfold emitAdjusted at h
  split_ifs at h with h1 h2
  cases h
  have ham : a.micro = 0 := by
    rcases hca with h' | ⟨h', _⟩ <;> subst h' <;> exact hgs.2
  have hbm : b.micro = 0 := by
    rcases hcb with h' | ⟨h', _⟩ <;> subst h' <;> exact hge.2
  have hfa : (a.fmt).toMicros = a.toMicros := fmt_toMicros_of_micro_eq a ham
  have hfb : (b.fmt).toMicros = b.toMicros := fmt_toMicros_of_micro_eq b hbm
  dsimp only
  rw [hfa, hfb]
  refine ⟨?_, h1, ?_⟩
  · rcases hca with h' | ⟨h', hlt⟩
    · exact h' ▸ le_refl _
    · exact h' ▸ le_setHour_self wsh hgs.1 hlt
  · rcases hcb with h' | ⟨h', hle⟩
    · exact h' ▸ le_refl _
    · exact h' ▸ setHour_le_self weh hle

/-- The start of a slot emitted by `emitGap` is the formatted clipped start. -/
theorem emitGap_start_eq (who : Bool) (wsh weh : Nat) (md : Int) (gs ge : DT) (s : FreeSlot)
    (h : emitGap who wsh weh md gs ge = some s) : s.start = (adjStart who wsh gs).fmt := by
  unfold emitGap at h
  cases hadj : adjustGap who wsh weh gs ge with
  | none => rw [hadj] at h; cases h
  | some p =>
    obtain ⟨a, b⟩ := p
    rw [hadj] at h
    dsimp only at h
    exact emitAdjusted_start_eq who wsh weh md gs ge a b s hadj h

/-- Every slot `emitGap` produces has duration at least the minimum. -/
theorem emitGap_min_le (who : Bool) (wsh weh : Nat) (md : Int) (gs ge : DT) (s : FreeSlot)
    (h : emitGap who wsh weh md gs ge = some s) : md ≤ s.duration_minutes := by
  unfold emitGap at h
  cases hadj : adjustGap who wsh weh gs ge with
  | none => rw [hadj] at h; cases h
  | some p =>
    obtain ⟨a, b⟩ := p
    rw [hadj] at h
    dsimp only at h
    exact emitAdjusted_min_le md a b s h

/-- Raising the minimum duration turns `emitGap` into a post-filter. -/
theorem emitGap_md_mono (who : Bool) (wsh weh : Nat) (md1 md2 : Int) (h : md1 ≤ md2)
    (gs ge : DT) :
    emitGap who wsh weh md2 gs ge =
      (emitGap who wsh weh md1 gs ge).bind
        (fun s => if md2 ≤ s.duration_minutes then some s else none) := by
  unfold emitGap
  cases hadj : adjustGap who wsh weh gs ge with
  | none => rfl
  | some p =>
    obtain ⟨a, b⟩ := p
    exact emitAdjusted_md_mono md1 md2 h a b

/-- An emitted final-gap slot stays inside its whole-second raw gap. -/
theorem emitGap_bounds (who : Bool) (wsh weh : Nat) (md : Int) {gs ge : DT} {s : FreeSlot}
    (hgs : gs.wf) (hge : ge.wf) (h : emitGap who wsh weh md gs ge = some s) :
    gs.toMicros ≤ s.start.toMicros ∧ s.start.toMicros < s.endf.toMicros ∧
      s.endf.toMicros ≤ ge.toMicros := by
  unfold emitGap at h
  cases hadj : adjustGap who wsh weh gs ge with
  | none => rw [hadj] at h; cases h
  | some p =>
    obtain ⟨a, b⟩ := p
    rw [hadj] at h
    dsimp only at h
    exact emitAdjusted_bounds who wsh weh md hgs hge hadj h

/-- Members of an insertion are the inserted element or old members. -/
theorem mem_insertBusy (x y : DT × DT) (l : List (DT × DT)) (h : y ∈ insertBusy x l) :
    y = x ∨ y ∈ l := by
  induction l with
  | nil => simpa [insertBusy] using h
  | cons z zs ih =>
    unfold insertBusy at h
    split_ifs at h with hz
    · rw [List.mem_cons] at h
      rcases h with h | h
      · exact Or.inr (h ▸ List.mem_cons_self z zs)
      · rcases ih h with h | h
        · exact Or.inl h
        · exact Or.inr (List.mem_cons_of_mem z h)
    · rw [List.mem_cons] at h
      rcases h with h | h
      · exact Or.inl h
      · exact Or.inr h

/-- Sorting introduces no new busy intervals. -/
theorem mem_sortBusy (y : DT × DT) (l : List (DT × DT)) (h : y ∈ sortBusy l) : y ∈ l := by
  induction l with
  | nil => simpa [sortBusy] using h
  | cons x xs ih =>
    unfold sortBusy at h
    rcases mem_insertBusy x y _ h with h | h
    · exact h ▸ List.mem_cons_self x xs
    · exact List.mem_cons_of_mem x (ih h)

/-- The inserted element is a member of the insertion. -/
theorem mem_insertBusy_self (x : DT × DT) (l : List (DT × DT)) : x ∈ insertBusy x l := by
  induction l with
  | nil => simp [insertBusy]
  | cons z zs ih =>
    unfold insertBusy
    split_ifs
    · exact List.mem_cons_of_mem z ih
    · exact List.mem_cons_self x (z :: zs)

/-- Insertion keeps the old members. -/
theorem mem_insertBusy_of_mem (x y : DT × DT) (l : List (DT × DT)) (h : y ∈ l) :
    y ∈ insertBusy x l := by
  induction l with
  | nil => cases h
  | cons z zs ih =>
    unfold insertBusy
    rw [List.mem_cons] at h
    split_ifs
    · rcases h with rfl | h
      · exact List.mem_cons_self y _
      · exact List.mem_cons_of_mem z (ih h)
    · rcases h with rfl | h
      · exact List.mem_cons_of_mem x (List.mem_cons_self y zs)
      · exact List.mem_cons_of_mem x (List.mem_cons_of_mem z h)

/-- Sorting keeps every busy interval. -/
theorem mem_sortBusy_of_mem (y : DT × DT) (l : List (DT × DT)) (h : y ∈ l) :
    y ∈ sortBusy l := by
  induction l with
  | nil => cases h
  | cons x xs ih =>
    unfold sortBusy
    rw [List.mem_cons] at h
    rcases h with h | h
    · exact h ▸ mem_insertBusy_self x (sortBusy xs)
    · exact mem_insertBusy_of_mem x y _ (ih h)

/-- Insertion preserves sortedness by start. -/
theorem insertBusy_sorted (x : DT × DT) (l : List (DT × DT))
    (h : List.Pairwise (fun p q : DT × DT => p.1.toMicros ≤ q.1.toMicros) l) :
    List.Pairwise (fun p q : DT × DT => p.1.toMicros ≤ q.1.toMicros) (insertBusy x l) := by
  induction l with
  | nil => simp [insertBusy]
  | cons z zs ih =>
    rw [List.pairwise_cons] at h
    obtain ⟨hz, hzs⟩ := h
    unfold insertBusy
    split_ifs with hlt
    · refine List.Pairwise.cons ?_ (ih hzs)
      intro q hq
      rcases mem_insertBusy x q zs hq with h' | h'
      · subst h'; omega
      · exact hz q h'
    · refine List.Pairwise.cons ?_ (List.Pairwise.cons hz hzs)
      intro q hq
      rw [List.mem_cons] at hq
      rcases hq with h' | h'
      · subst h'; omega
      · have := hz q h'; omega

/-- The sorted busy list is pairwise ordered by start. -/
theorem sortBusy_sorted (l : List (DT × DT)) :
    List.Pairwise (fun p q : DT × DT => p.1.toMicros ≤ q.1.toMicros) (sortBusy l) := by
  induction l with
  | nil => exact List.Pairwise.nil
  | cons x xs ih => exact insertBusy_sorted x (sortBusy xs) ih

/-- A record missing a boundary or carrying an unparseable timestamp is
skipped by the busy-interval extraction. -/
theorem busyOfEvent_malformed (ev : Event) (h : ev.malformed) : busyOfEvent ev = none := by
  obtain ⟨s, e⟩ := ev
  simp only [Event.malformed] at h
  rcases h with h | h | h | h | h | h <;> subst h
  · rfl
  · cases s <;> rfl
  · cases e <;> rfl
  · cases e <;> rfl
  · cases s <;> rfl
  · cases s <;> rfl

/-- Busy intervals extracted from events with field-valid timestamps are
field-valid. -/
theorem busyOfEvent_valid (ev : Event) (h1 : ev.start.fieldsOk) (h2 : ev.endf.fieldsOk)
    (p : DT × DT) (h : busyOfEvent ev = some p) : p.1.valid ∧ p.2.valid := by
  obtain ⟨s, e⟩ := ev
  obtain ⟨p1, p2⟩ := p
  cases s <;> cases e <;>
    simp_all [busyOfEvent, TimeField.isMissing, TimeField.hasT, fromIso, strptimeDate,
      TimeField.fieldsOk, midnight, Prod.mk.injEq, Option.some.injEq] <;>
    obtain ⟨ha, hb⟩ := h <;>
    subst ha <;> subst hb <;>
    simp_all [DT.valid]

/-- Busy intervals extracted from whole-second events are whole-second. -/
theorem busyOfEvent_wf (ev : Event) (h1 : ev.start.wfT) (h2 : ev.endf.wfT)
    (p : DT × DT) (h : busyOfEvent ev = some p) : p.1.wf ∧ p.2.wf := by
  obtain ⟨s, e⟩ := ev
  obtain ⟨p1, p2⟩ := p
  cases s <;> cases e <;>
    simp_all [busyOfEvent, TimeField.isMissing, TimeField.hasT, fromIso, strptimeDate,
      TimeField.wfT, midnight, Prod.mk.injEq, Option.some.injEq] <;>
    obtain ⟨ha, hb⟩ := h <;>
    subst ha <;> subst hb <;>
    simp_all [DT.wf, DT.valid]

/-- C1, counterexample: a parseable 10-minute window (00:00 to 00:10 of day 0)
with no busy intervals and working hours disabled yields NO slot at the
default `min_duration_minutes = 30`, although the claim promises exactly one
slot for every such window. -/
theorem c1_counterexample :
    (⟨0,0,0,0,0⟩ : DT).toMicros < (⟨0,0,10,0,0⟩ : DT).toMicros ∧
    find_free_slots [] (some ⟨0,0,0,0,0⟩) (some ⟨0,0,10,0,0⟩) 30 false 9 17 = [] := by
  decide

/-- C1, amended: for every window with parseable `rangeStart` strictly before
`rangeEnd`, no busy intervals and working hours disabled, provided the window
length in whole (floor-truncated) minutes is at least `minDurationMinutes`,
the result is exactly one `FreeSlot` spanning the full window (at the second
precision of the output format) whose `durationMinutes` is that window length
in whole minutes.  The theorem settles both sides of the proviso: the result
is exactly the one full-window slot when the whole-minute window length
reaches the minimum, and empty otherwise. -/
theorem c1_full_window_slot (rs re : DT) (md : Int) (wsh weh : Nat)
    (hlt : rs.toMicros < re.toMicros) :
    find_free_slots [] (some rs) (some re) md false wsh weh =
      if md ≤ durMinutes rs re then [⟨rs.fmt, re.fmt, durMinutes rs re⟩] else [] := by
  by_cases hmd : md ≤ durMinutes rs re <;>
    simp [find_free_slots, sortBusy, sweep, emitGap, adjustGap, emitAdjusted, hlt, hmd]

/-- C1, witness: the amended theorem applied at a concrete 8-hour window. -/
theorem c1_witness :
    (⟨0,9,0,0,0⟩ : DT).toMicros < (⟨0,17,0,0,0⟩ : DT).toMicros ∧
    find_free_slots [] (some ⟨0,9,0,0,0⟩) (some ⟨0,17,0,0,0⟩) 30 false 9 17 =
      (if (30 : Int) ≤ durMinutes ⟨0,9,0,0,0⟩ ⟨0,17,0,0,0⟩ then
        [⟨(⟨0,9,0,0,0⟩ : DT).fmt, (⟨0,17,0,0,0⟩ : DT).fmt, durMinutes ⟨0,9,0,0,0⟩ ⟨0,17,0,0,0⟩⟩]
      else []) :=
  ⟨by decide, c1_full_window_slot _ _ 30 9 17 (by decide)⟩

/-- C5, counterexample: a clean 100-second gap (window 00:00:00 to 00:01:40,
no busy intervals, working hours disabled) with `minDurationMinutes = 2`.
The nearest-integer duration claimed by the spec is `round(100/60) = 2 ≥ 2`,
so the claim demands an emitted slot, but the code truncates
(`int(100/60) = 1 < 2`) and emits nothing. -/
theorem c5_counterexample :
    find_free_slots [] (some ⟨0,0,0,0,0⟩) (some ⟨0,0,1,40,0⟩) 2 false 9 17 = [] ∧
    specDurationMinutes ⟨0,0,0,0,0⟩ ⟨0,0,1,40,0⟩ = 2 := by
  constructor
  · decide
  · unfold specDurationMinutes DT.toMicros
    norm_num
    rw [round_eq]
    norm_num

/-- C5, amended: for every candidate gap that survives clipping, the
`durationMinutes` recorded in the emitted `FreeSlot` equals
`(end - start)` in minutes truncated (floor), not rounded to nearest, and
the slot is emitted iff the clipped gap is non-empty and this truncated
value is at least `minDurationMinutes`. -/
theorem c5_duration_truncates (who : Bool) (wsh weh : Nat) (md : Int) (gs ge a b : DT)
    (h : adjustGap who wsh weh gs ge = some (a, b)) :
    emitGap who wsh weh md gs ge =
      if a.toMicros < b.toMicros ∧ md ≤ (b.toMicros - a.toMicros) / 60000000 then
        some ⟨a.fmt, b.fmt, (b.toMicros - a.toMicros) / 60000000⟩
      else none := by
  unfold emitGap emitAdjusted durMinutes
  rw [h]
  by_cases h1 : a.toMicros < b.toMicros <;>
    by_cases h2 : md ≤ (b.toMicros - a.toMicros) / 60000000 <;>
    simp [h1, h2]

/-- C5, witness: the amended theorem applied at a concrete surviving gap. -/
theorem c5_witness :
    emitGap false 9 17 30 (⟨0,9,0,0,0⟩ : DT) (⟨0,17,0,0,0⟩ : DT) =
      if (⟨0,9,0,0,0⟩ : DT).toMicros < (⟨0,17,0,0,0⟩ : DT).toMicros ∧
          (30 : Int) ≤ ((⟨0,17,0,0,0⟩ : DT).toMicros - (⟨0,9,0,0,0⟩ : DT).toMicros) / 60000000 then
        some ⟨(⟨0,9,0,0,0⟩ : DT).fmt, (⟨0,17,0,0,0⟩ : DT).fmt,
          ((⟨0,17,0,0,0⟩ : DT).toMicros - (⟨0,9,0,0,0⟩ : DT).toMicros) / 60000000⟩
      else none :=
  c5_duration_truncates false 9 17 30 _ _ _ _ rfl

/-- C6: if either window boundary fails to parse, `find_free_slots` returns
the empty sequence, and (in the error-aware model) no exception escapes. -/
theorem c6_bad_window_empty (events : List Event) (tmin tmax : Option DT) (md : Int)
    (who : Bool) (wsh weh : Nat) (h : tmin = none ∨ tmax = none) :
    find_free_slots events tmin tmax md who wsh weh = [] ∧
    find_free_slotsE events tmin tmax md who wsh weh = some [] := by
  rcases h with h | h
  · subst h; cases tmax <;> exact ⟨rfl, rfl⟩
  · subst h; cases tmin <;> exact ⟨rfl, rfl⟩

/-- C6, witness: the theorem applied with a concrete unparseable start. -/
theorem c6_witness :
    find_free_slots [] none (some ⟨0,0,0,0,0⟩) 30 false 9 17 = [] ∧
    find_free_slotsE [] none (some ⟨0,0,0,0,0⟩) 30 false 9 17 = some [] :=
  c6_bad_window_empty [] none (some ⟨0,0,0,0,0⟩) 30 false 9 17 (Or.inl rfl)

/-- C7: inserting a malformed record (missing a start or end boundary, or
with an unparseable timestamp) at any position of the event list leaves
the output of `find_free_slots` unchanged. -/
theorem c7_malformed_skipped (l1 l2 : List Event) (r : Event) (hr : r.malformed)
    (tmin tmax : Option DT) (md : Int) (who : Bool) (wsh weh : Nat) :
    find_free_slots (l1 ++ r :: l2) tmin tmax md who wsh weh =
      find_free_slots (l1 ++ l2) tmin tmax md who wsh weh := by
  have hb := busyOfEvent_malformed r hr
  cases tmin with
  | none => cases tmax <;> rfl
  | some rs =>
    cases tmax with
    | none => rfl
    | some re =>
      simp only [find_free_slots, List.filterMap_append, List.filterMap_cons, hb]

/-- C7, witness: a record with a missing start inserted after one valid
event changes nothing. -/
theorem c7_witness :
    find_free_slots [⟨.timed ⟨0,12,0,0,0⟩, .timed ⟨0,13,0,0,0⟩⟩, ⟨.missing, .timed ⟨0,14,0,0,0⟩⟩]
        (some ⟨0,9,0,0,0⟩) (some ⟨0,17,0,0,0⟩) 30 false 9 17 =
      find_free_slots [⟨.timed ⟨0,12,0,0,0⟩, .timed ⟨0,13,0,0,0⟩⟩]
        (some ⟨0,9,0,0,0⟩) (some ⟨0,17,0,0,0⟩) 30 false 9 17 :=
  c7_malformed_skipped [⟨.timed ⟨0,12,0,0,0⟩, .timed ⟨0,13,0,0,0⟩⟩] [] ⟨.missing, .timed ⟨0,14,0,0,0⟩⟩
    (by decide) _ _ 30 false 9 17

/-- C9: a window from 00:00 to 23:59:59 of any single day, no busy
intervals, working hours enabled 9 to 17, and any `minDurationMinutes` at
most 480 yields exactly one slot from 09:00 to 17:00 of that day with
`durationMinutes = 480`. -/
theorem c9_working_hours_day (d : Int) (md : Int) (hmd : md ≤ 480) :
    find_free_slots [] (some ⟨d,0,0,0,0⟩) (some ⟨d,23,59,59,0⟩) md true 9 17 =
      [⟨⟨d,9,0,0,0⟩, ⟨d,17,0,0,0⟩, 480⟩] := by
  have h1 : (⟨d,0,0,0,0⟩ : DT).toMicros < (⟨d,23,59,59,0⟩ : DT).toMicros := by
    simp only [DT.toMicros]; push_cast; omega
  have h2 : durMinutes (⟨d,9,0,0,0⟩ : DT) (⟨d,17,0,0,0⟩ : DT) = 480 := by
    have h0 : (⟨d,17,0,0,0⟩ : DT).toMicros - (⟨d,9,0,0,0⟩ : DT).toMicros = 28800000000 := by
      simp only [DT.toMicros]; push_cast; ring
    unfold durMinutes
    rw [h0]
    norm_num
  have h3 : (⟨d,9,0,0,0⟩ : DT).toMicros < (⟨d,17,0,0,0⟩ : DT).toMicros := by
    simp only [DT.toMicros]; push_cast; omega
  simp only [find_free_slots, sortBusy, List.filterMap_nil, sweep, h1, if_pos]
  simp only [emitGap, adjustGap, adjustEnd, emitAdjusted]
  norm_num
  simp only [DT.setHour, DT.fmt, h2]
  simp [h3, hmd]

/-- C9, witness: the theorem applied at day 5 with the default minimum. -/
theorem c9_witness :
    find_free_slots [] (some ⟨5,0,0,0,0⟩) (some ⟨5,23,59,59,0⟩) 30 true 9 17 =
      [⟨⟨5,9,0,0,0⟩, ⟨5,17,0,0,0⟩, 480⟩] :=
  c9_working_hours_day 5 30 (by decide)

/-- The final sweep cursor does not depend on the minimum duration. -/
theorem sweep_snd_md (who : Bool) (wsh weh : Nat) (md md' : Int) (re : DT)
    (L : List (DT × DT)) :
    ∀ c, (sweep who wsh weh md re L c).2 = (sweep who wsh weh md' re L c).2 := by
  induction L with
  | nil => intro c; rfl
  | cons p rest ih =>
    obtain ⟨bs, be⟩ := p
    intro c
    simp only [sweep]
    by_cases hlt : c.toMicros < bs.toMicros
    · rw [if_pos hlt, if_pos hlt]
      cases hadj : adjustGap who wsh weh c (DT.dmin bs re) with
      | none => exact ih c
      | some ab =>
        obtain ⟨a, b⟩ := ab
        exact ih _
    · rw [if_neg hlt, if_neg hlt]
      exact ih _

/-- The sweep output for a larger minimum duration is the filtered sweep
output for a smaller one. -/
theorem sweep_fst_md_filter (who : Bool) (wsh weh : Nat) (md1 md2 : Int) (h : md1 ≤ md2)
    (re : DT) (L : List (DT × DT)) :
    ∀ c, (sweep who wsh weh md2 re L c).1 =
      (sweep who wsh weh md1 re L c).1.filter (fun s => decide (md2 ≤ s.duration_minutes)) := by
  induction L with
  | nil => intro c; rfl
  | cons p rest ih =>
    obtain ⟨bs, be⟩ := p
    intro c
    simp only [sweep]
    by_cases hlt : c.toMicros < bs.toMicros
    · rw [if_pos hlt, if_pos hlt]
      cases hadj : adjustGap who wsh weh c (DT.dmin bs re) with
      | none => exact ih c
      | some ab =>
        obtain ⟨a, b⟩ := ab
        dsimp only
        rw [List.filter_append, ih]
        congr 1
        rw [emitAdjusted_md_mono md1 md2 h a b]
        cases emitAdjusted md1 a b with
        | none => rfl
        | some s => by_cases hs : md2 ≤ s.duration_minutes <;> simp [hs]
    · rw [if_neg hlt, if_neg hlt]
      exact ih _

/-- Every slot in the sweep output has duration at least the minimum. -/
theorem sweep_mem_min_le (who : Bool) (wsh weh : Nat) (md : Int) (re : DT)
    (L : List (DT × DT)) :
    ∀ c s, s ∈ (sweep who wsh weh md re L c).1 → md ≤ s.duration_minutes := by
  induction L with
  | nil => intro c s hs; simp [sweep] at hs
  | cons p rest ih =>
    obtain ⟨bs, be⟩ := p
    intro c s hs
    simp only [sweep] at hs
    split_ifs at hs with hlt
    · cases hadj : adjustGap who wsh weh c (DT.dmin bs re) with
      | none => rw [hadj] at hs; exact ih c s hs
      | some ab =>
        obtain ⟨a, b⟩ := ab
        rw [hadj] at hs
        dsimp only at hs
        rw [List.mem_append] at hs
        rcases hs with hs | hs
        · cases hemit : emitAdjusted md a b with
          | none => rw [hemit] at hs; cases hs
          | some s0 =>
            rw [hemit] at hs
            simp only [Option.toList_some, List.mem_singleton] at hs
            subst hs
            exact emitAdjusted_min_le md a b s hemit
        · exact ih _ s hs
    · exact ih _ s hs

/-- C4: for fixed busy list, window and policy, and minimum durations
`md1 ≤ md2`, the output at `md2` is exactly the subsequence of the output
at `md1` whose slots have duration at least `md2` (so raising the minimum
only removes slots, never adds or resizes), and no emitted slot ever has
duration below the given minimum. -/
theorem c4_duration_filter (events : List Event) (tmin tmax : Option DT)
    (md1 md2 : Int) (who : Bool) (wsh weh : Nat) (h : md1 ≤ md2) :
    find_free_slots events tmin tmax md2 who wsh weh =
      (find_free_slots events tmin tmax md1 who wsh weh).filter
        (fun s => decide (md2 ≤ s.duration_minutes)) ∧
    ∀ s ∈ find_free_slots events tmin tmax md1 who wsh weh, md1 ≤ s.duration_minutes := by
  constructor
  · cases tmin with
    | none => cases tmax <;> rfl
    | some rs =>
      cases tmax with
      | none => rfl
      | some re =>
        simp only [find_free_slots]
        rw [sweep_fst_md_filter who wsh weh md1 md2 h re _ rs]
        rw [sweep_snd_md who wsh weh md2 md1 re _ rs]
        by_cases hc : (sweep who wsh weh md1 re (sortBusy (events.filterMap busyOfEvent)) rs).2.toMicros < re.toMicros
        · simp only [hc, if_pos, List.filter_append]
          congr 1
          rw [emitGap_md_mono who wsh weh md1 md2 h]
          cases emitGap who wsh weh md1 (sweep who wsh weh md1 re (sortBusy (events.filterMap busyOfEvent)) rs).2 re with
          | none => rfl
          | some s => by_cases hs : md2 ≤ s.duration_minutes <;> simp [hs]
        · simp [hc]
  · cases tmin with
    | none => cases tmax <;> simp [find_free_slots]
    | some rs =>
      cases tmax with
      | none => simp [find_free_slots]
      | some re =>
        intro s hs
        simp only [find_free_slots] at hs
        split_ifs at hs with hc
        · rw [List.mem_append] at hs
          rcases hs with hs | hs
          · exact sweep_mem_min_le who wsh weh md1 re _ rs s hs
          · cases hemit : emitGap who wsh weh md1 (sweep who wsh weh md1 re (sortBusy (events.filterMap busyOfEvent)) rs).2 re with
            | none => rw [hemit] at hs; cases hs
            | some s0 =>
              rw [hemit] at hs
              simp only [Option.toList_some, List.mem_singleton] at hs
              subst hs
              exact emitGap_min_le who wsh weh md1 _ _ _ hemit
        · exact sweep_mem_min_le who wsh weh md1 re _ rs s hs

/-- C4, witness: the theorem applied at spec Scenario D with minima 30/60. -/
theorem c4_witness :
    (find_free_slots [⟨.timed ⟨0,10,0,0,0⟩, .timed ⟨0,10,15,0,0⟩⟩]
        (some ⟨0,9,0,0,0⟩) (some ⟨0,11,0,0,0⟩) 60 false 9 17 =
      (find_free_slots [⟨.timed ⟨0,10,0,0,0⟩, .timed ⟨0,10,15,0,0⟩⟩]
        (some ⟨0,9,0,0,0⟩) (some ⟨0,11,0,0,0⟩) 30 false 9 17).filter
        (fun s => decide ((60:Int) ≤ s.duration_minutes))) ∧
    ∀ s ∈ find_free_slots [⟨.timed ⟨0,10,0,0,0⟩, .timed ⟨0,10,15,0,0⟩⟩]
        (some ⟨0,9,0,0,0⟩) (some ⟨0,11,0,0,0⟩) 30 false 9 17, (30:Int) ≤ s.duration_minutes :=
  c4_duration_filter _ _ _ 30 60 _ _ _ (by decide)

/-- `replace(hour=h, ...)` cannot raise when `0 ≤ h ≤ 23`. -/
theorem setHourE_ok (t : DT) (h : Nat) (hh : h ≤ 23) : setHourE t h = some (t.setHour h) := by
  simp [setHourE, hh]

/-- The end clip raises no exception for an in-range end hour. -/
theorem adjustEndE_ok (wsh weh : Nat) (hweh : weh ≤ 23) (gs ge : DT) :
    adjustEndE wsh weh gs ge = some (adjustEnd wsh weh gs ge) := by
  unfold adjustEndE adjustEnd
  split_ifs <;> simp [setHourE_ok _ _ hweh]

/-- The working-hours clip raises no exception for in-range policy hours. -/
theorem adjustGapE_ok (who : Bool) (wsh weh : Nat) (hwsh : wsh ≤ 23) (hweh : weh ≤ 23)
    (gs ge : DT) : adjustGapE who wsh weh gs ge = some (adjustGap who wsh weh gs ge) := by
  unfold adjustGapE adjustGap
  split_ifs <;> simp [setHourE_ok _ _ hwsh, adjustEndE_ok _ weh hweh]

/-- Gap emission raises no exception for in-range policy hours. -/
theorem emitGapE_ok (who : Bool) (wsh weh : Nat) (md : Int) (hwsh : wsh ≤ 23) (hweh : weh ≤ 23)
    (gs ge : DT) : emitGapE who wsh weh md gs ge = some (emitGap who wsh weh md gs ge) := by
  unfold emitGapE emitGap
  rw [adjustGapE_ok who wsh weh hwsh hweh]
  cases adjustGap who wsh weh gs ge with
  | none => rfl
  | some p => obtain ⟨a, b⟩ := p; rfl

/-- The sweep raises no exception for in-range policy hours. -/
theorem sweepE_ok (who : Bool) (wsh weh : Nat) (md : Int) (hwsh : wsh ≤ 23) (hweh : weh ≤ 23)
    (re : DT) (L : List (DT × DT)) :
    ∀ c, sweepE who wsh weh md re L c = some (sweep who wsh weh md re L c) := by
  induction L with
  | nil => intro c; rfl
  | cons p rest ih =>
    obtain ⟨bs, be⟩ := p
    intro c
    simp only [sweepE, sweep]
    by_cases hlt : c.toMicros < bs.toMicros
    · rw [if_pos hlt, if_pos hlt, adjustGapE_ok who wsh weh hwsh hweh]
      cases hadj : adjustGap who wsh weh c (DT.dmin bs re) with
      | none => dsimp only [Option.bind]; exact ih c
      | some ab =>
        obtain ⟨a, b⟩ := ab
        dsimp only [Option.bind]
        simp [ih]
    · rw [if_neg hlt, if_neg hlt]
      exact ih _

/-- C8: over the declared input shape (policy hours in 0..23),
`find_free_slots` never raises: the error-aware model always returns a
normal (possibly empty) list, namely the one the pure model computes.
Bad windows and bad records are resolved internally. -/
theorem c8_total (events : List Event) (tmin tmax : Option DT) (md : Int)
    (who : Bool) (wsh weh : Nat) (hwsh : wsh ≤ 23) (hweh : weh ≤ 23) :
    find_free_slotsE events tmin tmax md who wsh weh =
      some (find_free_slots events tmin tmax md who wsh weh) := by
  cases tmin with
  | none => cases tmax <;> rfl
  | some rs =>
    cases tmax with
    | none => rfl
    | some re =>
      simp only [find_free_slotsE, find_free_slots,
        sweepE_ok who wsh weh md hwsh hweh re _ rs]
      by_cases hc : (sweep who wsh weh md re (sortBusy (events.filterMap busyOfEvent)) rs).2.toMicros < re.toMicros
      · simp [hc, emitGapE_ok who wsh weh md hwsh hweh]
      · simp [hc]

/-- C8, witness: the theorem applied at a concrete in-range input. -/
theorem c8_witness :
    find_free_slotsE [⟨.timed ⟨0,12,0,0,0⟩, .timed ⟨0,13,0,0,0⟩⟩]
        (some ⟨0,9,0,0,0⟩) (some ⟨0,17,0,0,0⟩) 30 true 9 17 =
      some (find_free_slots [⟨.timed ⟨0,12,0,0,0⟩, .timed ⟨0,13,0,0,0⟩⟩]
        (some ⟨0,9,0,0,0⟩) (some ⟨0,17,0,0,0⟩) 30 true 9 17) :=
  c8_total _ _ _ 30 true 9 17 (by decide) (by decide)

/-- C2, counterexample: the program violates overlap-merge when working
hours are enabled.  With busy intervals (day1 03:00, day1 11:00) and
(day1 10:00, day1 12:00) — overlapping, well-formed — window day0 10:00 to
day2 16:00, working hours 9 to 17: the first gap is end-discarded by the
clip's `continue` (line 245), which skips the cursor update at line 258,
so the two-interval run emits two slots while the run on the union
interval emits one (different) slot. -/
theorem c2_counterexample :
    (DT.dmax ⟨1,3,0,0,0⟩ ⟨1,10,0,0,0⟩).toMicros ≤
      (DT.dmin ⟨1,11,0,0,0⟩ ⟨1,12,0,0,0⟩).toMicros ∧
    find_free_slots [⟨.timed ⟨1,3,0,0,0⟩, .timed ⟨1,11,0,0,0⟩⟩,
        ⟨.timed ⟨1,10,0,0,0⟩, .timed ⟨1,12,0,0,0⟩⟩]
      (some ⟨0,10,0,0,0⟩) (some ⟨2,16,0,0,0⟩) 30 true 9 17 =
      [⟨⟨0,10,0,0,0⟩, ⟨1,10,0,0,0⟩, 1440⟩, ⟨⟨1,12,0,0,0⟩, ⟨2,16,0,0,0⟩, 1680⟩] ∧
    find_free_slots [⟨.timed (DT.dmin ⟨1,3,0,0,0⟩ ⟨1,10,0,0,0⟩),
        .timed (DT.dmax ⟨1,11,0,0,0⟩ ⟨1,12,0,0,0⟩)⟩]
      (some ⟨0,10,0,0,0⟩) (some ⟨2,16,0,0,0⟩) 30 true 9 17 =
      [⟨⟨0,10,0,0,0⟩, ⟨2,16,0,0,0⟩, 3240⟩] := by
  decide

/-- With working hours disabled, two sorted busy intervals whose second
starts no later than the first ends sweep exactly like the single merged
interval. -/
theorem sweep_pair_merge (wsh weh : Nat) (md : Int) (re : DT)
    (s1 e1 s2 e2 : DT) (c : DT) (hov : s2.toMicros ≤ e1.toMicros) :
    sweep false wsh weh md re [(s1, e1), (s2, e2)] c =
      sweep false wsh weh md re [(s1, DT.dmax e1 e2)] c := by
  have h2 : ¬ (DT.dmax c e1).toMicros < s2.toMicros := by
    unfold DT.dmax; split_ifs <;> omega
  simp only [sweep, adjustGap_false]
  rw [if_neg h2, dmax_assoc]

/-- C2, amended: for every pair of overlapping busy intervals and every
window and minimum duration, WITH WORKING-HOURS MODE DISABLED,
`find_free_slots` on the two-interval list returns the same sequence of
slots as on the single interval that is their union; in particular no gap
is emitted between them.  (With working hours enabled the property fails,
see the counterexample: a clip-discarded gap leaves the cursor behind.) -/
theorem c2_overlap_merge (s1 e1 s2 e2 : DT) (tmin tmax : Option DT) (md : Int)
    (wsh weh : Nat)
    (hv1 : s1.valid) (hv2 : e1.valid) (hv3 : s2.valid) (hv4 : e2.valid)
    (hi1 : s1.toMicros ≤ e1.toMicros) (hi2 : s2.toMicros ≤ e2.toMicros)
    (hov : (DT.dmax s1 s2).toMicros ≤ (DT.dmin e1 e2).toMicros) :
    find_free_slots [⟨.timed s1, .timed e1⟩, ⟨.timed s2, .timed e2⟩] tmin tmax md false wsh weh =
      find_free_slots [⟨.timed (DT.dmin s1 s2), .timed (DT.dmax e1 e2)⟩] tmin tmax md false wsh weh := by
  cases tmin with
  | none => cases tmax <;> rfl
  | some rs =>
    cases tmax with
    | none => rfl
    | some re =>
      simp only [find_free_slots]
      have hbL : List.filterMap busyOfEvent
          [⟨.timed s1, .timed e1⟩, ⟨.timed s2, .timed e2⟩] = [(s1, e1), (s2, e2)] := rfl
      have hbR : List.filterMap busyOfEvent
          [⟨.timed (DT.dmin s1 s2), .timed (DT.dmax e1 e2)⟩] =
          [(DT.dmin s1 s2, DT.dmax e1 e2)] := rfl
      rw [hbL, hbR]
      have hsR : sortBusy [(DT.dmin s1 s2, DT.dmax e1 e2)] =
          [(DT.dmin s1 s2, DT.dmax e1 e2)] := rfl
      rw [hsR]
      by_cases hlt : s2.toMicros < s1.toMicros
      · have hsL : sortBusy [(s1, e1), (s2, e2)] = [(s2, e2), (s1, e1)] := by
          simp [sortBusy, insertBusy, hlt]
        rw [hsL]
        have hmin : DT.dmin s1 s2 = s2 := by
          unfold DT.dmin; rw [if_neg]; omega
        have hov2 : s1.toMicros ≤ e2.toMicros := by
          unfold DT.dmax DT.dmin at hov; split_ifs at hov <;> omega
        rw [hmin, sweep_pair_merge wsh weh md re s2 e2 s1 e1 rs hov2,
          dmax_comm hv4 hv2]
      · have hsL : sortBusy [(s1, e1), (s2, e2)] = [(s1, e1), (s2, e2)] := by
          simp [sortBusy, insertBusy, hlt]
        rw [hsL]
        have hmin : DT.dmin s1 s2 = s1 := by
          unfold DT.dmin; rw [if_pos]; omega
        have hov2 : s2.toMicros ≤ e1.toMicros := by
          unfold DT.dmax DT.dmin at hov; split_ifs at hov <;> omega
        rw [hmin, sweep_pair_merge wsh weh md re s1 e1 s2 e2 rs hov2]

/-- C2, witness: two concrete overlapping meetings 10-12 and 11-13, with
working hours disabled. -/
theorem c2_witness :
    find_free_slots [⟨.timed ⟨0,10,0,0,0⟩, .timed ⟨0,12,0,0,0⟩⟩,
        ⟨.timed ⟨0,11,0,0,0⟩, .timed ⟨0,13,0,0,0⟩⟩]
        (some ⟨0,9,0,0,0⟩) (some ⟨0,17,0,0,0⟩) 30 false 9 17 =
      find_free_slots [⟨.timed (DT.dmin ⟨0,10,0,0,0⟩ ⟨0,11,0,0,0⟩),
        .timed (DT.dmax ⟨0,12,0,0,0⟩ ⟨0,13,0,0,0⟩)⟩]
        (some ⟨0,9,0,0,0⟩) (some ⟨0,17,0,0,0⟩) 30 false 9 17 :=
  c2_overlap_merge ⟨0,10,0,0,0⟩ ⟨0,12,0,0,0⟩ ⟨0,11,0,0,0⟩ ⟨0,13,0,0,0⟩ _ _ 30 9 17
    (by decide) (by decide) (by decide) (by decide) (by decide) (by decide) (by decide)

/-- The formatted clipped start is monotone in the raw start, for field-valid
datetimes.  (The raw clipped start is NOT monotone: `replace` keeps the
microsecond field, but formatting truncates it away again.) -/
theorem adjStart_fmt_mono (who : Bool) (wsh : Nat) {c d : DT} (hc : c.valid) (hd : d.valid)
    (h : c.toMicros ≤ d.toMicros) :
    ((adjStart who wsh c).fmt).toMicros ≤ ((adjStart who wsh d).fmt).toMicros := by
  obtain ⟨c1,c2,c3,c4,c5⟩ := c
  obtain ⟨d1,d2,d3,d4,d5⟩ := d
  simp only [DT.valid] at hc hd
  simp only [DT.toMicros] at h
  unfold adjStart DT.setHour DT.fmt
  split_ifs <;> dsimp only [DT.toMicros] at * <;> omega

/-- Sweep invariant for chronological order: the cursor only advances and
stays field-valid, the emitted slots are sorted by start, and every emitted
start lies between the formatted clipped initial and final cursors. -/
theorem sweep_sorted_inv (who : Bool) (wsh weh : Nat) (md : Int) (re : DT)
    (L : List (DT × DT)) :
    ∀ c : DT, c.valid → (∀ p ∈ L, (p.2 : DT).valid) →
      c.toMicros ≤ (sweep who wsh weh md re L c).2.toMicros ∧
      (sweep who wsh weh md re L c).2.valid ∧
      List.Pairwise (fun a b : FreeSlot => a.start.toMicros ≤ b.start.toMicros)
        (sweep who wsh weh md re L c).1 ∧
      ∀ s ∈ (sweep who wsh weh md re L c).1,
        ((adjStart who wsh c).fmt).toMicros ≤ s.start.toMicros ∧
        s.start.toMicros ≤ ((adjStart who wsh (sweep who wsh weh md re L c).2).fmt).toMicros := by
  induction L with
  | nil =>
    intro c hc hL
    refine ⟨le_refl _, hc, List.Pairwise.nil, ?_⟩
    intro s hs
    simp [sweep] at hs
  | cons p rest ih =>
    obtain ⟨bs, be⟩ := p
    intro c hc hL
    have hbe : be.valid := hL (bs, be) (List.mem_cons_self _ _)
    have hrest : ∀ q ∈ rest, (q.2 : DT).valid := fun q hq => hL q (List.mem_cons_of_mem _ hq)
    have hc1 : (DT.dmax c be).valid := dmax_valid hc hbe
    have hcle : c.toMicros ≤ (DT.dmax c be).toMicros := le_dmax_left c be
    simp only [sweep]
    by_cases hlt : c.toMicros < bs.toMicros
    · rw [if_pos hlt]
      cases hadj : adjustGap who wsh weh c (DT.dmin bs re) with
      | none => exact ih c hc hrest
      | some ab =>
        obtain ⟨a, b⟩ := ab
        dsimp only
        obtain ⟨ih1, ih2, ih3, ih4⟩ := ih (DT.dmax c be) hc1 hrest
        have hcr : c.toMicros ≤ (sweep who wsh weh md re rest (DT.dmax c be)).2.toMicros :=
          le_trans hcle ih1
        have hm1 : ((adjStart who wsh c).fmt).toMicros ≤
            ((adjStart who wsh (DT.dmax c be)).fmt).toMicros :=
          adjStart_fmt_mono who wsh hc hc1 hcle
        refine ⟨hcr, ih2, ?_, ?_⟩
        · cases hemit : emitAdjusted md a b with
          | none => simpa using ih3
          | some s0 =>
            simp only [Option.toList_some, List.singleton_append]
            refine List.Pairwise.cons ?_ ih3
            intro s hs
            rw [emitAdjusted_start_eq who wsh weh md c (DT.dmin bs re) a b s0 hadj hemit]
            exact le_trans hm1 (ih4 s hs).1
        · intro s hs
          cases hemit : emitAdjusted md a b with
          | none =>
            rw [hemit] at hs
            simp only [Option.toList_none, List.nil_append] at hs
            exact ⟨le_trans hm1 (ih4 s hs).1, (ih4 s hs).2⟩
          | some s0 =>
            rw [hemit] at hs
            simp only [Option.toList_some, List.singleton_append, List.mem_cons] at hs
            rcases hs with hs | hs
            · subst hs
              rw [emitAdjusted_start_eq who wsh weh md c (DT.dmin bs re) a b s hadj hemit]
              exact ⟨le_refl _, adjStart_fmt_mono who wsh hc ih2 hcr⟩
            · exact ⟨le_trans hm1 (ih4 s hs).1, (ih4 s hs).2⟩
    · rw [if_neg hlt]
      obtain ⟨ih1, ih2, ih3, ih4⟩ := ih (DT.dmax c be) hc1 hrest
      have hm1 : ((adjStart who wsh c).fmt).toMicros ≤
          ((adjStart who wsh (DT.dmax c be)).fmt).toMicros :=
        adjStart_fmt_mono who wsh hc hc1 hcle
      exact ⟨le_trans hcle ih1, ih2, ih3,
        fun s hs => ⟨le_trans hm1 (ih4 s hs).1, (ih4 s hs).2⟩⟩

/-- C3: for every input, the sequence of slots returned by
`find_free_slots` is chronologically non-decreasing by its `start` field
(compared at the second precision of the output format, which is what the
output records carry). -/
theorem c3_sorted_output (events : List Event) (tmin tmax : Option DT) (md : Int)
    (who : Bool) (wsh weh : Nat)
    (hm : ∀ t ∈ tmin, DT.valid t) (hM : ∀ t ∈ tmax, DT.valid t)
    (hE : ∀ ev ∈ events, ev.start.fieldsOk ∧ ev.endf.fieldsOk) :
    List.Pairwise (fun a b : FreeSlot => a.start.toMicros ≤ b.start.toMicros)
      (find_free_slots events tmin tmax md who wsh weh) := by
  cases tmin with
  | none => cases tmax <;> simp [find_free_slots]
  | some rs =>
    cases tmax with
    | none => simp [find_free_slots]
    | some re =>
      have hrs : rs.valid := hm rs (by simp)
      have hbusy : ∀ p ∈ sortBusy (events.filterMap busyOfEvent), (p.2 : DT).valid := by
        intro p hp
        have hp2 := mem_sortBusy p _ hp
        rw [List.mem_filterMap] at hp2
        obtain ⟨ev, hev, hbe⟩ := hp2
        exact (busyOfEvent_valid ev (hE ev hev).1 (hE ev hev).2 p hbe).2
      obtain ⟨h1, h2, h3, h4⟩ := sweep_sorted_inv who wsh weh md re _ rs hrs hbusy
      simp only [find_free_slots]
      by_cases hc : (sweep who wsh weh md re (sortBusy (events.filterMap busyOfEvent)) rs).2.toMicros < re.toMicros
      · rw [if_pos hc]
        cases hemit : emitGap who wsh weh md
            (sweep who wsh weh md re (sortBusy (events.filterMap busyOfEvent)) rs).2 re with
        | none => simpa using h3
        | some f =>
          simp only [Option.toList_some]
          refine List.pairwise_append.mpr ⟨h3, by simp, ?_⟩
          intro a ha b hb
          simp only [List.mem_singleton] at hb
          subst hb
          rw [emitGap_start_eq who wsh weh md _ re b hemit]
          exact (h4 a ha).2
      · rw [if_neg hc]
        exact h3

/-- C3, witness: the theorem applied at a concrete one-event input. -/
theorem c3_witness :
    List.Pairwise (fun a b : FreeSlot => a.start.toMicros ≤ b.start.toMicros)
      (find_free_slots [⟨.timed ⟨0,12,0,0,0⟩, .timed ⟨0,13,0,0,0⟩⟩]
        (some ⟨0,9,0,0,0⟩) (some ⟨0,17,0,0,0⟩) 30 true 9 17) :=
  c3_sorted_output _ _ _ 30 true 9 17
    (by intro t ht; simp only [Option.mem_def, Option.some.injEq] at ht; subst ht; decide)
    (by intro t ht; simp only [Option.mem_def, Option.some.injEq] at ht; subst ht; decide)
    (by decide)

/-- C10, counterexample, two parts.  (1) With a fractional-second
`rangeStart` (00:00:00.5) the emitted slot starts at the formatted
timestamp 00:00:00, strictly BEFORE `rangeStart`: the slot does not lie
within `[rangeStart, rangeEnd]` (the output format truncates to whole
seconds).  (2) Even on whole-second inputs, with working hours enabled the
clip's `continue` (line 245) skips the cursor update at line 258 and the
code emits the slot day0 10:00 to day1 10:00 whose interior overlaps the
busy interval (day1 03:00, day1 11:00): the two final inequalities show
the slot and that busy interval are not disjoint. -/
theorem c10_counterexample :
    (find_free_slots [] (some ⟨0,0,0,0,500000⟩) (some ⟨0,12,0,0,0⟩) 30 false 9 17 =
        [⟨⟨0,0,0,0,0⟩, ⟨0,12,0,0,0⟩, 719⟩] ∧
      (⟨0,0,0,0,0⟩ : DT).toMicros < (⟨0,0,0,0,500000⟩ : DT).toMicros) ∧
    (find_free_slots [⟨.timed ⟨1,3,0,0,0⟩, .timed ⟨1,11,0,0,0⟩⟩,
          ⟨.timed ⟨1,10,0,0,0⟩, .timed ⟨1,12,0,0,0⟩⟩]
        (some ⟨0,10,0,0,0⟩) (some ⟨2,16,0,0,0⟩) 30 true 9 17 =
        [⟨⟨0,10,0,0,0⟩, ⟨1,10,0,0,0⟩, 1440⟩, ⟨⟨1,12,0,0,0⟩, ⟨2,16,0,0,0⟩, 1680⟩] ∧
      (⟨0,10,0,0,0⟩ : DT).toMicros < (⟨1,11,0,0,0⟩ : DT).toMicros ∧
      (⟨1,3,0,0,0⟩ : DT).toMicros < (⟨1,10,0,0,0⟩ : DT).toMicros) := by
  decide

/-- Sweep invariant for window containment on whole-second inputs, for any
working-hours mode: the cursor only advances (it stays put on a
clip-discard) and stays whole-second valid, and every emitted slot starts
at or after the initial cursor, is non-empty, and ends by the range end. -/
theorem sweep_bounds_inv (who : Bool) (wsh weh : Nat) (md : Int) (re : DT) (hre : re.wf)
    (L : List (DT × DT)) :
    ∀ c : DT, c.wf → (∀ p ∈ L, (p.1 : DT).wf ∧ (p.2 : DT).wf) →
      c.toMicros ≤ (sweep who wsh weh md re L c).2.toMicros ∧
      (sweep who wsh weh md re L c).2.wf ∧
      ∀ s ∈ (sweep who wsh weh md re L c).1,
        c.toMicros ≤ s.start.toMicros ∧ s.start.toMicros < s.endf.toMicros ∧
        s.endf.toMicros ≤ re.toMicros := by
  induction L with
  | nil =>
    intro c hc _
    refine ⟨le_refl _, hc, ?_⟩
    intro s hs
    simp [sweep] at hs
  | cons p rest ih =>
    obtain ⟨bs, be⟩ := p
    intro c hc hL
    have hbs : bs.wf := (hL (bs, be) (List.mem_cons_self _ _)).1
    have hbe : be.wf := (hL (bs, be) (List.mem_cons_self _ _)).2
    have hrest : ∀ q ∈ rest, (q.1 : DT).wf ∧ (q.2 : DT).wf :=
      fun q hq => hL q (List.mem_cons_of_mem _ hq)
    have hc1 : (DT.dmax c be).wf := dmax_wf hc hbe
    have hcle : c.toMicros ≤ (DT.dmax c be).toMicros := le_dmax_left c be
    simp only [sweep]
    by_cases hlt : c.toMicros < bs.toMicros
    · rw [if_pos hlt]
      cases hadj : adjustGap who wsh weh c (DT.dmin bs re) with
      | none => exact ih c hc hrest
      | some ab =>
        obtain ⟨a, b⟩ := ab
        dsimp only
        obtain ⟨ih1, ih2, ih3⟩ := ih (DT.dmax c be) hc1 hrest
        refine ⟨le_trans hcle ih1, ih2, ?_⟩
        intro s hs
        rw [List.mem_append] at hs
        rcases hs with hs | hs
        · cases hemit : emitAdjusted md a b with
          | none => rw [hemit] at hs; cases hs
          | some s0 =>
            rw [hemit] at hs
            simp only [Option.toList_some, List.mem_singleton] at hs
            subst hs
            obtain ⟨hb1, hb2, hb3⟩ :=
              emitAdjusted_bounds who wsh weh md hc (dmin_wf hbs hre) hadj hemit
            exact ⟨hb1, hb2, le_trans hb3 (dmin_le_right bs re)⟩
        · obtain ⟨hi1, hi2⟩ := ih3 s hs
          exact ⟨le_trans hcle hi1, hi2⟩
    · rw [if_neg hlt]
      obtain ⟨ih1, ih2, ih3⟩ := ih (DT.dmax c be) hc1 hrest
      exact ⟨le_trans hcle ih1, ih2,
        fun s hs => ⟨le_trans hcle (ih3 s hs).1, (ih3 s hs).2⟩⟩

/-- Sweep invariant for busy-disjointness with working-hours mode disabled
(then no clip-discard happens and the cursor advances past every processed
busy interval): the cursor ends at or after every busy end, and each
emitted slot starts at or after the initial cursor and is interior-disjoint
from every busy interval of the (sorted, whole-second) list. -/
theorem sweep_disjoint_inv (wsh weh : Nat) (md : Int) (re : DT) (hre : re.wf)
    (L : List (DT × DT)) :
    ∀ c : DT, c.wf → (∀ p ∈ L, (p.1 : DT).wf ∧ (p.2 : DT).wf) →
      List.Pairwise (fun p q : DT × DT => p.1.toMicros ≤ q.1.toMicros) L →
      c.toMicros ≤ (sweep false wsh weh md re L c).2.toMicros ∧
      (sweep false wsh weh md re L c).2.wf ∧
      (∀ p ∈ L, (p.2 : DT).toMicros ≤ (sweep false wsh weh md re L c).2.toMicros) ∧
      ∀ s ∈ (sweep false wsh weh md re L c).1,
        c.toMicros ≤ s.start.toMicros ∧
        ∀ p ∈ L, (p.2 : DT).toMicros ≤ s.start.toMicros ∨
          s.endf.toMicros ≤ (p.1 : DT).toMicros := by
  induction L with
  | nil =>
    intro c hc _ _
    refine ⟨le_refl _, hc, by simp, ?_⟩
    intro s hs
    simp [sweep] at hs
  | cons p rest ih =>
    obtain ⟨bs, be⟩ := p
    intro c hc hL hsorted
    have hbs : bs.wf := (hL (bs, be) (List.mem_cons_self _ _)).1
    have hbe : be.wf := (hL (bs, be) (List.mem_cons_self _ _)).2
    have hrest : ∀ q ∈ rest, (q.1 : DT).wf ∧ (q.2 : DT).wf :=
      fun q hq => hL q (List.mem_cons_of_mem _ hq)
    rw [List.pairwise_cons] at hsorted
    obtain ⟨hbs_le, hsrest⟩ := hsorted
    have hc1 : (DT.dmax c be).wf := dmax_wf hc hbe
    obtain ⟨ih1, ih2, ih3, ih4⟩ := ih (DT.dmax c be) hc1 hrest hsrest
    have hcle : c.toMicros ≤ (DT.dmax c be).toMicros := le_dmax_left c be
    have hber : be.toMicros ≤ (DT.dmax c be).toMicros := le_dmax_right c be
    simp only [sweep, adjustGap_false]
    by_cases hlt : c.toMicros < bs.toMicros
    · rw [if_pos hlt]
      dsimp only
      refine ⟨le_trans hcle ih1, ih2, ?_, ?_⟩
      · intro q hq
        rw [List.mem_cons] at hq
        rcases hq with rfl | hq
        · exact le_trans hber ih1
        · exact ih3 q hq
      · intro s hmem
        rw [List.mem_append] at hmem
        rcases hmem with hmem | hmem
        · cases hemit : emitAdjusted md c (DT.dmin bs re) with
          | none => rw [hemit] at hmem; cases hmem
          | some s0 =>
            rw [hemit] at hmem
            simp only [Option.toList_some, List.mem_singleton] at hmem
            subst hmem
            obtain ⟨hb1, hb2, hb3⟩ :=
              emitAdjusted_bounds false wsh weh md hc (dmin_wf hbs hre)
                (adjustGap_false wsh weh c (DT.dmin bs re)) hemit
            have hend_bs : s.endf.toMicros ≤ bs.toMicros :=
              le_trans hb3 (dmin_le_left bs re)
            refine ⟨hb1, ?_⟩
            intro q hq
            rw [List.mem_cons] at hq
            rcases hq with rfl | hq
            · exact Or.inr hend_bs
            · exact Or.inr (le_trans hend_bs (hbs_le q hq))
        · obtain ⟨hi1, hi4⟩ := ih4 s hmem
          refine ⟨le_trans hcle hi1, ?_⟩
          intro q hq
          rw [List.mem_cons] at hq
          rcases hq with rfl | hq
          · exact Or.inl (le_trans hber hi1)
          · exact hi4 q hq
    · rw [if_neg hlt]
      refine ⟨le_trans hcle ih1, ih2, ?_, ?_⟩
      · intro q hq
        rw [List.mem_cons] at hq
        rcases hq with rfl | hq
        · exact le_trans hber ih1
        · exact ih3 q hq
      · intro s hmem
        obtain ⟨hi1, hi4⟩ := ih4 s hmem
        refine ⟨le_trans hcle hi1, ?_⟩
        intro q hq
        rw [List.mem_cons] at hq
        rcases hq with rfl | hq
        · exact Or.inl (le_trans hber hi1)
        · exact hi4 q hq

/-- C10, amended: on whole-second inputs (window bounds and event
timestamps with no fractional-second part), every slot emitted by
`find_free_slots` has start strictly before end and lies entirely within
`[rangeStart, rangeEnd]`; when additionally working-hours mode is
disabled, its interior is disjoint from every successfully parsed busy
interval of the input.  (With working hours enabled, disjointness fails:
a clip-discarded gap leaves the cursor behind, see the counterexample.) -/
theorem c10_slot_bounds (events : List Event) (rs re : DT) (md : Int)
    (who : Bool) (wsh weh : Nat)
    (hrs : rs.wf) (hre : re.wf)
    (hE : ∀ ev ∈ events, ev.start.wfT ∧ ev.endf.wfT) :
    ∀ s ∈ find_free_slots events (some rs) (some re) md who wsh weh,
      s.start.toMicros < s.endf.toMicros ∧
      rs.toMicros ≤ s.start.toMicros ∧ s.endf.toMicros ≤ re.toMicros ∧
      (who = false → ∀ ev ∈ events, ∀ p, busyOfEvent ev = some p →
        (p.2 : DT).toMicros ≤ s.start.toMicros ∨
          s.endf.toMicros ≤ (p.1 : DT).toMicros) := by
  have hLwf : ∀ p ∈ sortBusy (events.filterMap busyOfEvent), (p.1 : DT).wf ∧ (p.2 : DT).wf := by
    intro p hp
    have hp2 := mem_sortBusy p _ hp
    rw [List.mem_filterMap] at hp2
    obtain ⟨ev, hev, hbe⟩ := hp2
    exact busyOfEvent_wf ev (hE ev hev).1 (hE ev hev).2 p hbe
  have hmemL : ∀ ev ∈ events, ∀ p, busyOfEvent ev = some p →
      p ∈ sortBusy (events.filterMap busyOfEvent) := by
    intro ev hev p hbe
    exact mem_sortBusy_of_mem p _ (List.mem_filterMap.mpr ⟨ev, hev, hbe⟩)
  intro s hs
  obtain ⟨w1, w2, w3⟩ := sweep_bounds_inv who wsh weh md re hre _ rs hrs hLwf
  have hbounds : s.start.toMicros < s.endf.toMicros ∧
      rs.toMicros ≤ s.start.toMicros ∧ s.endf.toMicros ≤ re.toMicros := by
    simp only [find_free_slots] at hs
    split_ifs at hs with hc
    · rw [List.mem_append] at hs
      rcases hs with hs | hs
      · obtain ⟨hi1, hi2, hi3⟩ := w3 s hs
        exact ⟨hi2, hi1, hi3⟩
      · cases hemit : emitGap who wsh weh md
            (sweep who wsh weh md re (sortBusy (events.filterMap busyOfEvent)) rs).2 re with
        | none => rw [hemit] at hs; cases hs
        | some f =>
          rw [hemit] at hs
          simp only [Option.toList_some, List.mem_singleton] at hs
          subst hs
          obtain ⟨hb1, hb2, hb3⟩ := emitGap_bounds who wsh weh md w2 hre hemit
          exact ⟨hb2, le_trans w1 hb1, hb3⟩
    · obtain ⟨hi1, hi2, hi3⟩ := w3 s hs
      exact ⟨hi2, hi1, hi3⟩
  refine ⟨hbounds.1, hbounds.2.1, hbounds.2.2, ?_⟩
  intro hwho
  subst hwho
  obtain ⟨d1, d2, d3, d4⟩ :=
    sweep_disjoint_inv wsh weh md re hre _ rs hrs hLwf (sortBusy_sorted _)
  intro ev hev p hbe
  have hpL : p ∈ sortBusy (events.filterMap busyOfEvent) := hmemL ev hev p hbe
  simp only [find_free_slots] at hs
  split_ifs at hs with hc
  · rw [List.mem_append] at hs
    rcases hs with hs | hs
    · exact (d4 s hs).2 p hpL
    · cases hemit : emitGap false wsh weh md
          (sweep false wsh weh md re (sortBusy (events.filterMap busyOfEvent)) rs).2 re with
      | none => rw [hemit] at hs; cases hs
      | some f =>
        rw [hemit] at hs
        simp only [Option.toList_some, List.mem_singleton] at hs
        subst hs
        obtain ⟨hb1, hb2, hb3⟩ := emitGap_bounds false wsh weh md d2 hre hemit
        exact Or.inl (le_trans (d3 p hpL) hb1)
  · exact (d4 s hs).2 p hpL

/-- C10, witness: the amended theorem applied at a concrete whole-second
input with working hours disabled, evaluated at the emitted slot
13:00-17:00 and the busy interval 12:00-13:00. -/
theorem c10_witness :
    (⟨0,13,0,0,0⟩ : DT).toMicros < (⟨0,17,0,0,0⟩ : DT).toMicros ∧
    (⟨0,9,0,0,0⟩ : DT).toMicros ≤ (⟨0,13,0,0,0⟩ : DT).toMicros ∧
    (⟨0,17,0,0,0⟩ : DT).toMicros ≤ (⟨0,17,0,0,0⟩ : DT).toMicros ∧
    ((⟨0,13,0,0,0⟩ : DT).toMicros ≤ (⟨0,13,0,0,0⟩ : DT).toMicros ∨
      (⟨0,17,0,0,0⟩ : DT).toMicros ≤ (⟨0,12,0,0,0⟩ : DT).toMicros) := by
  have h := c10_slot_bounds [⟨.timed ⟨0,12,0,0,0⟩, .timed ⟨0,13,0,0,0⟩⟩]
      ⟨0,9,0,0,0⟩ ⟨0,17,0,0,0⟩ 30 false 9 17 (by decide) (by decide) (by decide)
      ⟨⟨0,13,0,0,0⟩, ⟨0,17,0,0,0⟩, 240⟩ (by decide)
  obtain ⟨h1, h2, h3, h4⟩ := h
  exact ⟨h1, h2, h3, h4 rfl ⟨.timed ⟨0,12,0,0,0⟩, .timed ⟨0,13,0,0,0⟩⟩ (by decide)
    (⟨0,12,0,0,0⟩, ⟨0,13,0,0,0⟩) rfl⟩

end CalendarAgent
